import Mathlib

/-!
Shallow embedding of the OCI Grafana metrics datasource plugin
(`datasource.go`) together with proofs about the claims of its
specification.

Modelling conventions:
* Go maps indexed by strings are embedded as association lists
  (`List (String × String)`) with an insert that overwrites the value at an
  existing key and otherwise appends; the key-list stays duplicate-free, so
  list length coincides with Go's map length.  Go map iteration order is
  unspecified; the embedding iterates in list order.  Every theorem below
  about map contents is order-insensitive (it speaks about membership), so
  the choice of order is immaterial.
* Outbound SDK calls (`ListMetrics`, `GetTenancy`, `ListCompartments`,
  `SummarizeMetricsData`) are parameters of the embedded functions: each
  model takes the SDK's reply (or an abstract reply function) as an
  argument.
* The wrapping of errors (`errors.Wrap`) with `spew` dumps is modelled by
  propagating the underlying message; the dump text itself is opaque and
  irrelevant to the claims.
* Loops that Go bounds structurally are embedded with explicit fuel large
  enough to never be exhausted; the one genuinely unbounded loop (the
  full-path resolution loop of `getCompartments`) is embedded with fuel
  plus an explicit no-progress check: a pass that adds no entry leaves the
  accumulator unchanged, hence the Go loop repeats it forever, and the
  embedding returns `none` to record that divergence.
* Float datapoint values and the nanosecond-to-millisecond timestamp
  conversion of `queryResponse` (lines 586-594) are not modelled: no claim
  mentions datapoints.
-/

/-! ## Association lists standing for Go string maps -/

/-- Entries of a Go `map[string]string`, in insertion order. -/
abbrev SMap : Type := List (String × String)

/-- Key list of an association list. -/
def keysOf (m : SMap) : List String := m.map Prod.fst

/-- Membership test on keys, mirroring Go's `_, ok := m[k]`. -/
def hasKey (m : SMap) (k : String) : Bool := m.any (fun p => p.1 = k)

/-- Lookup, mirroring Go's `v, ok := m[k]`. -/
def lookupA (m : SMap) (k : String) : Option String :=
  (m.find? (fun p => p.1 = k)).map Prod.snd

/-- Lookup with Go's zero-value default, mirroring `m[k]` used as a value. -/
def lookupD (m : SMap) (k : String) : String := (lookupA m k).getD ""

/-- Go map assignment `m[k] = v`: overwrite the value when the key exists,
append a fresh entry otherwise. -/
def insertA (m : SMap) (k v : String) : SMap :=
  if hasKey m k then m.map (fun p => if p.1 = k then (k, v) else p)
  else m ++ [(k, v)]

/-! ## The compartment listing and the hierarchy resolver
(`getCompartments`, datasource.go lines 424-494) -/

/-- One entry of the `ListCompartments` response: `Id`, `Name`,
`CompartmentId` (the parent id) and whether `LifecycleState` equals
`Active`. -/
structure CompartmentItem where
  id : String
  name : String
  compartmentId : String
  active : Bool
deriving DecidableEq, Repr

/-- Lines 436-437 and 456-461: seed the id-to-name map with the tenancy and
record every active compartment's name (pagination of `ListCompartments`
only concatenates pages, so the model takes the concatenated item list). -/
def buildIdToName (tenancyOcid tenancyName : String)
    (items : List CompartmentItem) : SMap :=
  items.foldl (fun m it => if it.active then insertA m it.id it.name else m)
    [(tenancyOcid, tenancyName)]

/-- Lines 439-440 and 456-461: seed the id-to-parent map with the tenancy
(whose recorded parent is the empty string) and record every active
compartment's parent id. -/
def buildIdToParent (tenancyOcid : String)
    (items : List CompartmentItem) : SMap :=
  items.foldl (fun m it => if it.active then insertA m it.id it.compartmentId else m)
    [(tenancyOcid, "")]

/-- Lines 472-485, body of the scan over `mapFromIdToParentCmptId` for a
single entry `p = (cmptId, cmptParentCmptId)`: skip already-resolved ids,
resolve children of the tenancy to `"/" + name`, resolve entries whose
parent is already resolved to `parentFullName + "/" + name`. -/
def resolveStep (tenancyOcid : String) (idToName : SMap)
    (acc : SMap) (p : String × String) : SMap :=
  if hasKey acc p.1 then acc
  else if p.2 = tenancyOcid then acc ++ [(p.1, "/" ++ lookupD idToName p.1)]
  else
    match lookupA acc p.2 with
    | some fullParent => acc ++ [(p.1, fullParent ++ "/" ++ lookupD idToName p.1)]
    | none => acc

/-- Lines 472-486: one full pass of the resolution loop over all recorded
parent entries. -/
def resolvePass (tenancyOcid : String) (idToName idToParent acc : SMap) : SMap :=
  idToParent.foldl (resolveStep tenancyOcid idToName) acc

/-- Lines 471-487: `for len(mapFromIdToFullCmptName) < len(mapFromIdToName)`
iterate full passes.  A pass that adds nothing leaves the accumulator
unchanged, so the Go loop would repeat it forever; the embedding returns
`none` for that divergence.  A productive pass adds at least one entry and
the accumulator's key set stays inside the id-to-name key set, so fuel
`(buildIdToName ...).length` is never exhausted on a terminating run. -/
def resolveLoop (tenancyOcid : String) (idToName idToParent : SMap) :
    Nat → SMap → Option SMap
  | 0, acc => if acc.length < idToName.length then none else some acc
  | fuel + 1, acc =>
    if acc.length < idToName.length then
      let acc2 := resolvePass tenancyOcid idToName idToParent acc
      if acc2.length = acc.length then none
      else resolveLoop tenancyOcid idToName idToParent fuel acc2
    else some acc

/-- Lines 468-487: seed the full-name map with the tenancy's marker entry
and run the resolution loop. -/
def resolveFull (tenancyOcid tenancyName : String)
    (items : List CompartmentItem) : Option SMap :=
  resolveLoop tenancyOcid (buildIdToName tenancyOcid tenancyName items)
    (buildIdToParent tenancyOcid items)
    (buildIdToName tenancyOcid tenancyName items).length
    [(tenancyOcid, tenancyName ++ "(tenancy, shown as \x27/\x27)")]

/-- Lines 424-494, `getCompartments` after the SDK calls: `none` when the
resolution loop diverges, otherwise the final map from fully qualified
compartment name to compartment id (lines 489-491). -/
def getCompartmentsModel (tenancyOcid tenancyName : String)
    (items : List CompartmentItem) : Option SMap :=
  match resolveFull tenancyOcid tenancyName items with
  | none => none
  | some full => some (full.foldl (fun m p => insertA m p.2 p.1) [])

/-- Full path names computed by the resolver (empty on divergence); used to
state the distinct-full-path hypothesis of the amended claims. -/
def fullPathsOf (tenancyOcid tenancyName : String)
    (items : List CompartmentItem) : List String :=
  match resolveFull tenancyOcid tenancyName items with
  | none => []
  | some full => full.map Prod.snd

/-- The hypothesis that the active compartments form a finite tree hanging
off the tenancy: every recorded parent entry either points at the tenancy
or points at another recorded compartment of strictly smaller rank (for a
genuine tree, `rank` is the depth; existence of such a rank is exactly
acyclicity plus reachability of the root). -/
def TreeHyp (tenancyOcid : String) (idToParent : SMap) (rank : String → Nat) : Prop :=
  ∀ p ∈ idToParent, p.1 ≠ tenancyOcid →
    p.2 = tenancyOcid ∨ ∃ q ∈ idToParent, q.1 = p.2 ∧ rank p.2 < rank p.1

/-- Invariant of the resolution accumulator: duplicate-free keys, the
tenancy resolved, and every resolved key recorded in the parent map. -/
def AccInv (tenancyOcid : String) (idToParent acc : SMap) : Prop :=
  (keysOf acc).Nodup ∧ hasKey acc tenancyOcid = true ∧
    ∀ k, hasKey acc k = true → hasKey idToParent k = true

/-- Invariant of the full-name accumulator: every entry other than the
tenancy's carries a full path that begins with the character `/`. -/
def SlashInv (tenancyOcid : String) (acc : SMap) : Prop :=
  ∀ x ∈ acc, x.1 ≠ tenancyOcid → x.2.data.head? = some '/'

/-! ## The pagination helper (`searchHelper`, datasource.go lines 344-373) -/

/-- Line 344. -/
def MAX_PAGES_TO_FETCH : Nat := 20

/-- Lines 350-371: the fetch loop.  The backend is a function from the page
cursor (modelled as `Option Nat`: `none` is Go's `nil` first page) to the
page's items and its `OpcNextPage` cursor.  The model also counts the
`ListMetrics` calls made.  `pageNumber` increments per iteration and the
loop stops as soon as `pageNumber >= MAX_PAGES_TO_FETCH`, so at most
`MAX_PAGES_TO_FETCH + 1` iterations happen and the fuel below is never
exhausted. -/
def searchHelperLoop (api : Option Nat → List String × Option Nat) :
    Nat → Option Nat → Nat → List String × Nat → List String × Nat
  | 0, _, _, st => st
  | fuel + 1, page, pageNumber, st =>
    let res := api page
    let st2 := (st.1 ++ res.1, st.2 + 1)
    if res.2 = none ∨ MAX_PAGES_TO_FETCH ≤ pageNumber then st2
    else searchHelperLoop api fuel res.2 (pageNumber + 1) st2

/-- Lines 346-373, `searchHelper` on a non-failing backend: the accumulated
items of all fetched pages together with the number of `ListMetrics` calls
issued. -/
def searchHelperModel (api : Option Nat → List String × Option Nat) :
    List String × Nat :=
  searchHelperLoop api (MAX_PAGES_TO_FETCH + 1) none 0 ([], 0)

/-- A backend whose every page carries a next-page cursor (cursor `k`
answers with cursor `k+1`). -/
def apiEndlessPages : Option Nat → List String × Option Nat :=
  fun p => ([], some ((p.getD 0) + 1))

/-- A backend serving three pages, the first two with next-page cursors,
the last without. -/
def apiThreePages : Option Nat → List String × Option Nat :=
  fun p =>
    match p with
    | none => (["a"], some 1)
    | some 1 => (["b"], some 2)
    | some _ => (["c"], none)

/-! ## Series naming in the time-series reshaper
(`queryResponse`, datasource.go lines 555-584) -/

/-- Go's regexp word character class `\w`. -/
def isWordChar (c : Char) : Bool :=
  ('a' ≤ c && c ≤ 'z') || ('A' ≤ c && c ≤ 'Z') || ('0' ≤ c && c ≤ '9') || c = '_'

/-- Line 559: `regexp.MustCompile((?m)\w+Name).MatchString key` — the key
contains, at some position, at least one word character immediately
followed by the literal `Name`. -/
def hasWordThenName : List Char → Bool
  | [] => false
  | c :: rest =>
    (isWordChar c && List.isPrefixOf ['N', 'a', 'm', 'e'] rest) || hasWordThenName rest

/-- Go's string comparison, strictly-less: byte-wise lexicographic order on
the UTF-8 encoding, which coincides with code-point lexicographic order on
the character lists. -/
def charListLt : List Char → List Char → Bool
  | [], [] => false
  | [], _ :: _ => true
  | _ :: _, [] => false
  | a :: as, b :: bs =>
    if a < b then true else if b < a then false else charListLt as bs

/-- Go's `<=` on strings. -/
def strLeB (a b : String) : Bool := !(charListLt b.data a.data)

/-- Insertion step of the embedded `sort.Strings`. -/
def insertSortedStr (s : String) : List String → List String
  | [] => [s]
  | x :: xs => if strLeB s x then s :: x :: xs else x :: insertSortedStr s xs

/-- Line 574 `sort.Strings(dimensionKeys)`: sort the gathered keys. -/
def sortStrings (l : List String) : List String := l.foldr insertSortedStr []

/-- Lines 556-584: the name given to the series of one metric item.
`dims` is the item's dimension map, as key/value pairs.  First loop: for
every key matching the pattern, append `, {value}` to the name; the
gathered key list is the dimension keys.  Fallback (lines 572-584): when no
key matched, join all values in sorted-key order with a comma, restarting
while the accumulator is still empty, and append the braced result. -/
def seriesNameModel (metricName : String) (dims : List (String × String)) : String :=
  let afterLoop := dims.foldl
    (fun acc kv =>
      if hasWordThenName kv.1.data then acc ++ ", \x7b" ++ kv.2 ++ "\x7d" else acc)
    metricName
  if afterLoop = metricName then
    let sortedKeys := sortStrings (dims.map Prod.fst)
    let preDisplayName := sortedKeys.foldl
      (fun pre k => if pre = "" then lookupD dims k else pre ++ ", " ++ lookupD dims k)
      ""
    afterLoop ++ ", \x7b" ++ preDisplayName ++ "\x7d"
  else afterLoop

/-- The join the specification describes: all values separated by `, `. -/
def joinComma : List String → String
  | [] => ""
  | [v] => v
  | v :: rest => v ++ ", " ++ joinComma rest

/-! ## The main time-series query path
(`queryResponse`, datasource.go lines 502-606) -/

/-- One item of a `SummarizeMetricsData` response (name and dimensions; the
datapoint list is irrelevant to every claim and not modelled). -/
structure MetricItem where
  name : String
  dimensions : List (String × String)
deriving DecidableEq, Repr

/-- The per-query fields of `GrafanaOCIRequest` that the modelled logic
inspects: the Grafana `RefId` and the decoded `ResourceGroup`. -/
structure QRQuery where
  refId : String
  resourceGroup : String
deriving DecidableEq, Repr

/-- Lines 496-500: `responseAndQuery` — the SDK response paired with the
query and the error of the call (always `none` where appended, line 537). -/
structure ResponseAndQuery where
  items : List MetricItem
  query : QRQuery
  err : Option String
deriving DecidableEq, Repr

/-- One per-query result: `RefId`, the `Error` field, and the names of the
produced series. -/
structure QueryResultModel where
  refId : String
  error : Option String
  seriesNames : List String
deriving DecidableEq, Repr

/-- Lines 505-542, first loop of `queryResponse`: call
`SummarizeMetricsData` per query; any failing call aborts the whole batch
(line 535 `return nil, errors.Wrap(...)`); successes are collected
together with the query and the (necessarily nil) error. -/
def collectResults (api : QRQuery → Except String (List MetricItem)) :
    List QRQuery → Except String (List ResponseAndQuery)
  | [] => .ok []
  | q :: rest =>
    match api q with
    | .error e => .error e
    | .ok items => (collectResults api rest).map (fun tl => ⟨items, q, none⟩ :: tl)

/-- Lines 543-599, second loop of `queryResponse`: per collected response,
emit the `RefId`; a non-nil error would be placed into the result's
`Error` field (lines 548-552 — dead code, since the first loop never
stores one); otherwise emit one named series per item. -/
def buildQueryResults (rs : List ResponseAndQuery) : List QueryResultModel :=
  rs.map (fun r =>
    match r.err with
    | some e => { refId := r.query.refId, error := some e, seriesNames := [] }
    | none =>
      { refId := r.query.refId, error := none,
        seriesNames := r.items.map (fun it => seriesNameModel it.name it.dimensions) })

/-- Lines 502-606, `queryResponse`: both loops chained. -/
def queryResponseModel (api : QRQuery → Except String (List MetricItem))
    (queries : List QRQuery) : Except String (List QueryResultModel) :=
  (collectResults api queries).map buildQueryResults

/-! ## Resource-group sentinel on outbound requests
(datasource.go lines 154-156, 307-309, 521-523) -/

/-- The `ListMetricsDetails` fields the responders populate. -/
structure ListMetricsDetailsM where
  namespaceF : Option String
  resourceGroup : Option String
  nameF : Option String
  groupBy : List String
deriving DecidableEq, Repr

/-- Lines 152-157, `dimensionResponse`: request details for the dimension
lookup; the resource-group filter is omitted exactly when the decoded
field equals `NoResourceGroup`. -/
def dimensionReqDetails (namespaceV rg metric : String) : ListMetricsDetailsM :=
  { namespaceF := some namespaceV
    resourceGroup := if rg ≠ "NoResourceGroup" then some rg else none
    nameF := some metric
    groupBy := [] }

/-- Lines 303-309, `searchResponse`: request details for the metric-name
search. -/
def searchReqDetails (namespaceV rg : String) : ListMetricsDetailsM :=
  { namespaceF := some namespaceV
    resourceGroup := if rg ≠ "NoResourceGroup" then some rg else none
    nameF := none
    groupBy := ["name"] }

/-- Lines 521-523, `queryResponse`: the `ResourceGroup` field of the
`SummarizeMetricsDataDetails`. -/
def summarizeDetailsResourceGroup (rg : String) : Option String :=
  if rg ≠ "NoResourceGroup" then some rg else none

/-! ## Lookup responders (search dedup, resource groups)
(datasource.go lines 228-279 and 292-342) -/

/-- Lines 316-330, `searchResponse` row building: keep each metric name the
first time it is seen (`metricCache` seen-set). -/
def dedupNames : List String → List String → List String
  | [], _ => []
  | n :: rest, seen =>
    if seen.contains n then dedupNames rest seen
    else n :: dedupNames rest (n :: seen)

/-- The search responder's deduplicated row list for the items' names. -/
def searchRowsModel (names : List String) : List String := dedupNames names []

/-- Lines 238-270, `resourcegroupsResponse` query loop: each query's helper
outcome is either an error (which aborts the whole response, line 247) or
the list of its items' resource-group names; each successful query
replaces the shared table's rows with the sentinel `NoResourceGroup`
followed by its items (lines 250-269). -/
def rgLoop : List (Except String (List String)) → List String →
    Except String (List String)
  | [], rows => .ok rows
  | .error e :: _, _ => .error e
  | .ok items :: rest, _ => rgLoop rest ("NoResourceGroup" :: items)

/-- Lines 228-279, `resourcegroupsResponse`: the final row list of the
returned table, given each query's `searchHelper` outcome. -/
def resourcegroupsRowsModel (queryOutcomes : List (Except String (List String))) :
    Except String (List String) :=
  rgLoop queryOutcomes []

/-! ## Client bootstrap and dispatch (`Query`, `getConfigProvider`,
datasource.go lines 80-122 and 281-290) -/

/-- The two credential providers the bootstrap can construct. -/
inductive ConfigM
  | localCfg
  | instanceCfg
deriving DecidableEq, Repr

/-- Lines 281-290, `getConfigProvider`: `local` and `OCI Instance` yield
providers, anything else the error `unknown environment type`.  (The
instance-principal constructor's own failure mode is outside the claims
and not modelled.) -/
def getConfigProviderModel (environment : String) : Except String ConfigM :=
  if environment = "local" then .ok .localCfg
  else if environment = "OCI Instance" then .ok .instanceCfg
  else .error "unknown environment type"

/-- The client fields of `OCIDatasource` the bootstrap populates. -/
structure ClientState where
  config : Option ConfigM
  metricsClientBuilt : Bool
  identityClientBuilt : Bool
deriving DecidableEq, Repr

/-- The handler selected by the `switch queryType` of lines 104-121. -/
inductive HandlerTag
  | compartments | dimensions | namespaces | resourcegroups
  | regions | search | test | genericQuery
deriving DecidableEq, Repr

/-- Lines 104-121: dispatch on the `QueryType` string. -/
def dispatchModel (queryType : String) : HandlerTag :=
  if queryType = "compartments" then .compartments
  else if queryType = "dimensions" then .dimensions
  else if queryType = "namespaces" then .namespaces
  else if queryType = "resourcegroups" then .resourcegroups
  else if queryType = "regions" then .regions
  else if queryType = "search" then .search
  else if queryType = "test" then .test
  else .genericQuery

/-- Lines 85-102: when no provider is cached, resolve one from the
environment; failure aborts with the wrapped `broken environment` error
and constructs no client; success constructs and caches both clients. -/
def queryBootstrap (st : ClientState) (environment : String) :
    Except String ClientState :=
  match st.config with
  | some _ => .ok st
  | none =>
    match getConfigProviderModel environment with
    | .error e => .error ("broken environment: " ++ e)
    | .ok cfg => .ok ⟨some cfg, true, true⟩

/-- Lines 80-122, `Query`: bootstrap then dispatch; a bootstrap failure
returns the error and dispatches no handler. -/
def queryRouteModel (st : ClientState) (environment queryType : String) :
    Except String (ClientState × HandlerTag) :=
  match queryBootstrap st environment with
  | .error e => .error e
  | .ok st2 => .ok (st2, dispatchModel queryType)

/-! ## The compartment cache refresh check
(`compartmentsResponse`, datasource.go lines 375-393) -/

/-- Line 26: `cacheRefreshTime = time.Minute`, in nanoseconds. -/
def cacheRefreshTime : Int := 60000000000

/-- The cache fields of `OCIDatasource`: the name-to-id map and the time of
the last cache update (`none` models Go's zero `time.Time`, for which
`IsZero()` is true; the field is in fact never assigned anywhere in the
file). -/
structure CacheState where
  nameToOCID : SMap
  timeCacheUpdated : Option Int
deriving DecidableEq, Repr

/-- Line 385: `o.timeCacheUpdated.IsZero() || now.Sub(o.timeCacheUpdated) >
cacheRefreshTime`, times in nanoseconds. -/
def shouldRebuildCache (now : Int) (timeCacheUpdated : Option Int) : Bool :=
  match timeCacheUpdated with
  | none => true
  | some t => now - t > cacheRefreshTime

/-- Lines 382-393, `compartmentsResponse` cache handling: when the check
fires, a fresh listing (the `getCompartments` outcome, an error aborting
the request) replaces `nameToOCID`; `timeCacheUpdated` is left untouched
in every branch, exactly as in the source.  The boolean reports whether a
rebuild (an identity API call) happened. -/
def compartmentsStep (now : Int) (st : CacheState)
    (fresh : Except String SMap) : Except String (CacheState × Bool) :=
  if shouldRebuildCache now st.timeCacheUpdated then
    match fresh with
    | .error e => .error e
    | .ok m => .ok ({ st with nameToOCID := m }, true)
  else .ok (st, false)

/-! ## Basic facts about the map embedding -/

theorem hasKey_iff_mem (m : SMap) (k : String) :
    hasKey m k = true ↔ k ∈ keysOf m := by
  simp only [hasKey, keysOf, List.any_eq_true, List.mem_map,
    decide_eq_true_eq]

theorem hasKey_append (m1 m2 : SMap) (k : String) :
    hasKey (m1 ++ m2) k = (hasKey m1 k || hasKey m2 k) := by
  simp [hasKey]

theorem keysOf_append (m1 m2 : SMap) :
    keysOf (m1 ++ m2) = keysOf m1 ++ keysOf m2 := by
  simp [keysOf]

theorem keysOf_insertA (m : SMap) (k v : String) :
    keysOf (insertA m k v) =
      if hasKey m k then keysOf m else keysOf m ++ [k] := by
  by_cases h : hasKey m k
  · simp only [insertA, h, if_true, keysOf, List.map_map]
    apply List.map_congr_left
    intro p hp
    by_cases hk : p.1 = k
    · simp [Function.comp, hk]
    · simp [Function.comp, hk]
  · simp [insertA, h, keysOf]

theorem mem_keysOf_insertA (m : SMap) (k v j : String) :
    j ∈ keysOf (insertA m k v) ↔ j ∈ keysOf m ∨ j = k := by
  rw [keysOf_insertA]
  by_cases h : hasKey m k
  · simp only [h, if_true]
    constructor
    · intro hj; exact Or.inl hj
    · rintro (hj | rfl)
      · exact hj
      · exact (hasKey_iff_mem m j).mp h
  · simp [h]

theorem nodup_keysOf_insertA (m : SMap) (k v : String)
    (h : (keysOf m).Nodup) : (keysOf (insertA m k v)).Nodup := by
  rw [keysOf_insertA]
  by_cases hk : hasKey m k
  · simpa [hk] using h
  · rw [Bool.not_eq_true] at hk
    simp only [hk, Bool.false_eq_true, if_false]
    rw [List.nodup_append]
    refine ⟨h, List.nodup_singleton k, ?_⟩
    intro a ha hb
    simp only [List.mem_singleton] at hb
    subst hb
    have hnotmem : ¬ a ∈ keysOf m := by
      intro hmem
      have := (hasKey_iff_mem m a).mpr hmem
      rw [hk] at this
      exact Bool.false_ne_true this
    exact hnotmem ha

theorem lookupA_isSome (m : SMap) (k : String) :
    (lookupA m k).isSome = true ↔ hasKey m k = true := by
  simp [lookupA, hasKey, List.find?_isSome, List.any_eq_true]

theorem lookupA_mem {m : SMap} {k v : String} (h : lookupA m k = some v) :
    (k, v) ∈ m := by
  simp only [lookupA, Option.map_eq_some'] at h
  obtain ⟨p, hp, rfl⟩ := h
  have h1 := List.find?_some hp
  have h2 := List.mem_of_find?_eq_some hp
  simp only [decide_eq_true_eq] at h1
  have hp2 : p = (k, p.2) := by
    cases p
    simp_all
  rw [hp2] at h2
  exact h2

theorem hasKey_of_lookupA_some {m : SMap} {k v : String}
    (h : lookupA m k = some v) : hasKey m k = true := by
  rw [← lookupA_isSome, h]
  rfl

theorem lookupA_some_of_hasKey {m : SMap} {k : String}
    (h : hasKey m k = true) : ∃ v, lookupA m k = some v := by
  rw [← lookupA_isSome] at h
  exact Option.isSome_iff_exists.mp h

theorem hasKey_congr {m1 m2 : SMap} (h : keysOf m1 = keysOf m2) (k : String) :
    hasKey m1 k = hasKey m2 k := by
  rw [Bool.eq_iff_iff, hasKey_iff_mem, hasKey_iff_mem, h]

/-! ## Facts about the two listing maps built by `getCompartments` -/

theorem keysOf_buildFold (f g : CompartmentItem → String) :
    ∀ (items : List CompartmentItem) (m1 m2 : SMap), keysOf m1 = keysOf m2 →
      keysOf (items.foldl
        (fun m it => if it.active then insertA m it.id (f it) else m) m1) =
      keysOf (items.foldl
        (fun m it => if it.active then insertA m it.id (g it) else m) m2)
  | [], m1, m2, h => h
  | it :: rest, m1, m2, h => by
    simp only [List.foldl_cons]
    apply keysOf_buildFold f g rest
    by_cases ha : it.active
    · simp only [ha, if_true, keysOf_insertA, hasKey_congr h, h]
    · simpa [ha] using h

theorem nodup_keysOf_buildFold (f : CompartmentItem → String) :
    ∀ (items : List CompartmentItem) (m0 : SMap), (keysOf m0).Nodup →
      (keysOf (items.foldl
        (fun m it => if it.active then insertA m it.id (f it) else m) m0)).Nodup
  | [], _, h => h
  | it :: rest, m0, h => by
    simp only [List.foldl_cons]
    apply nodup_keysOf_buildFold f rest
    by_cases ha : it.active
    · simpa [ha] using nodup_keysOf_insertA m0 it.id (f it) h
    · simpa [ha] using h

theorem mem_keysOf_buildFold (f : CompartmentItem → String) :
    ∀ (items : List CompartmentItem) (m0 : SMap) (k : String), k ∈ keysOf m0 →
      k ∈ keysOf (items.foldl
        (fun m it => if it.active then insertA m it.id (f it) else m) m0)
  | [], _, _, h => h
  | it :: rest, m0, k, h => by
    simp only [List.foldl_cons]
    apply mem_keysOf_buildFold f rest
    by_cases ha : it.active
    · simp only [ha, if_true, mem_keysOf_insertA]
      exact Or.inl h
    · simpa [ha] using h

theorem active_mem_keysOf_buildFold (f : CompartmentItem → String) :
    ∀ (items : List CompartmentItem) (m0 : SMap) (it : CompartmentItem),
      it ∈ items → it.active = true →
      it.id ∈ keysOf (items.foldl
        (fun m it => if it.active then insertA m it.id (f it) else m) m0)
  | [], _, _, h, _ => absurd h (List.not_mem_nil _)
  | j :: rest, m0, it, h, ha => by
    rcases List.mem_cons.mp h with rfl | hrest
    · simp only [List.foldl_cons, ha, if_true]
      apply mem_keysOf_buildFold
      rw [mem_keysOf_insertA]
      exact Or.inr rfl
    · simp only [List.foldl_cons]
      exact active_mem_keysOf_buildFold f rest _ it hrest ha

theorem keysOf_buildIdToName_eq_buildIdToParent (t tn : String)
    (items : List CompartmentItem) :
    keysOf (buildIdToName t tn items) = keysOf (buildIdToParent t items) := by
  apply keysOf_buildFold
  simp [keysOf]

theorem nodup_keysOf_buildIdToName (t tn : String) (items : List CompartmentItem) :
    (keysOf (buildIdToName t tn items)).Nodup := by
  apply nodup_keysOf_buildFold
  simp [keysOf]

theorem tenancy_mem_buildIdToParent (t : String) (items : List CompartmentItem) :
    t ∈ keysOf (buildIdToParent t items) := by
  apply mem_keysOf_buildFold
  simp [keysOf]

theorem active_mem_buildIdToName (t tn : String) (items : List CompartmentItem)
    (it : CompartmentItem) (h : it ∈ items) (ha : it.active = true) :
    it.id ∈ keysOf (buildIdToName t tn items) :=
  active_mem_keysOf_buildFold _ items _ it h ha

/-! ## Structure of a resolution pass -/

theorem resolveStep_eq (t : String) (n acc : SMap) (p : String × String) :
    resolveStep t n acc p = acc ∨
      (hasKey acc p.1 = false ∧
        ∃ v, resolveStep t n acc p = acc ++ [(p.1, v)]) := by
  by_cases h1 : hasKey acc p.1
  · left
    unfold resolveStep
    simp [h1]
  · rw [Bool.not_eq_true] at h1
    by_cases h2 : p.2 = t
    · refine Or.inr ⟨h1, "/" ++ lookupD n p.1, ?_⟩
      unfold resolveStep
      rw [h1]
      simp only [Bool.false_eq_true, if_false]
      rw [if_pos h2]
    · cases hl : lookupA acc p.2 with
      | none =>
        left
        unfold resolveStep
        rw [h1]
        simp only [Bool.false_eq_true, if_false]
        rw [if_neg h2, hl]
      | some fullParent =>
        refine Or.inr ⟨h1, fullParent ++ "/" ++ lookupD n p.1, ?_⟩
        unfold resolveStep
        rw [h1]
        simp only [Bool.false_eq_true, if_false]
        rw [if_neg h2, hl]

theorem resolveStep_append (t : String) (n acc : SMap) (p : String × String) :
    ∃ e, resolveStep t n acc p = acc ++ e ∧
      (e = [] ∨ (hasKey acc p.1 = false ∧ ∃ v, e = [(p.1, v)])) := by
  rcases resolveStep_eq t n acc p with h | ⟨hk, v, h⟩
  · exact ⟨[], by simpa using h, Or.inl rfl⟩
  · exact ⟨[(p.1, v)], h, Or.inr ⟨hk, v, rfl⟩⟩

theorem hasKey_resolveStep_mono (t : String) (n acc : SMap) (p : String × String)
    (k : String) (h : hasKey acc k = true) :
    hasKey (resolveStep t n acc p) k = true := by
  obtain ⟨e, he, -⟩ := resolveStep_append t n acc p
  rw [he, hasKey_append, h, Bool.true_or]

theorem nodup_keysOf_resolveStep (t : String) (n acc : SMap) (p : String × String)
    (h : (keysOf acc).Nodup) : (keysOf (resolveStep t n acc p)).Nodup := by
  obtain ⟨e, he, hcase⟩ := resolveStep_append t n acc p
  rw [he]
  rcases hcase with rfl | ⟨hk, v, rfl⟩
  · simpa using h
  · rw [keysOf_append]
    rw [List.nodup_append]
    refine ⟨h, by simp [keysOf], ?_⟩
    intro a ha hb
    simp only [keysOf, List.map_cons, List.map_nil, List.mem_singleton] at hb
    rw [hb] at ha
    have hKey : hasKey acc p.1 = true := (hasKey_iff_mem acc p.1).mpr ha
    rw [hk] at hKey
    exact Bool.false_ne_true hKey

theorem hasKey_resolveStep_sub (t : String) (n acc : SMap) (p : String × String)
    (k : String) (h : hasKey (resolveStep t n acc p) k = true) :
    hasKey acc k = true ∨ k = p.1 := by
  obtain ⟨e, he, hcase⟩ := resolveStep_append t n acc p
  rw [he, hasKey_append, Bool.or_eq_true] at h
  rcases h with h | h
  · exact Or.inl h
  · rcases hcase with rfl | ⟨-, v, rfl⟩
    · simp [hasKey] at h
    · right
      have h4 : p.1 = k := by simpa [hasKey] using h
      exact h4.symm

theorem foldl_resolveStep_append (t : String) (n : SMap) :
    ∀ (l : SMap) (acc : SMap), ∃ e, l.foldl (resolveStep t n) acc = acc ++ e
  | [], acc => ⟨[], by simp⟩
  | p :: rest, acc => by
    simp only [List.foldl_cons]
    obtain ⟨e0, he0, -⟩ := resolveStep_append t n acc p
    obtain ⟨e1, he1⟩ := foldl_resolveStep_append t n rest (resolveStep t n acc p)
    exact ⟨e0 ++ e1, by rw [he1, he0, List.append_assoc]⟩

theorem hasKey_foldl_resolveStep_mono (t : String) (n : SMap) :
    ∀ (l : SMap) (acc : SMap) (k : String), hasKey acc k = true →
      hasKey (l.foldl (resolveStep t n) acc) k = true
  | [], _, _, h => h
  | p :: rest, acc, k, h => by
    simp only [List.foldl_cons]
    exact hasKey_foldl_resolveStep_mono t n rest _ k
      (hasKey_resolveStep_mono t n acc p k h)

theorem nodup_keysOf_foldl_resolveStep (t : String) (n : SMap) :
    ∀ (l : SMap) (acc : SMap), (keysOf acc).Nodup →
      (keysOf (l.foldl (resolveStep t n) acc)).Nodup
  | [], _, h => h
  | p :: rest, acc, h => by
    simp only [List.foldl_cons]
    exact nodup_keysOf_foldl_resolveStep t n rest _
      (nodup_keysOf_resolveStep t n acc p h)

theorem hasKey_foldl_resolveStep_sub (t : String) (n : SMap) :
    ∀ (l : SMap) (acc : SMap) (k : String),
      hasKey (l.foldl (resolveStep t n) acc) k = true →
      hasKey acc k = true ∨ k ∈ keysOf l
  | [], _, _, h => Or.inl h
  | p :: rest, acc, k, h => by
    simp only [List.foldl_cons] at h
    rcases hasKey_foldl_resolveStep_sub t n rest _ k h with h2 | h2
    · rcases hasKey_resolveStep_sub t n acc p k h2 with h3 | h3
      · exact Or.inl h3
      · right
        rw [h3]
        simp [keysOf]
    · right
      simp only [keysOf, List.map_cons, List.mem_cons]
      exact Or.inr h2

theorem mem_foldl_resolveStep (t : String) (n : SMap) (l : SMap) (acc : SMap)
    (x : String × String) (h : x ∈ acc) :
    x ∈ l.foldl (resolveStep t n) acc := by
  obtain ⟨e, he⟩ := foldl_resolveStep_append t n l acc
  rw [he]
  exact List.mem_append_left e h

theorem foldl_resolveStep_resolves (t : String) (n : SMap) :
    ∀ (l : SMap) (acc : SMap) (p : String × String), p ∈ l →
      (p.2 = t ∨ hasKey acc p.2 = true) →
      hasKey (l.foldl (resolveStep t n) acc) p.1 = true
  | [], _, _, hp, _ => absurd hp (List.not_mem_nil _)
  | q :: rest, acc, p, hp, hcond => by
    simp only [List.foldl_cons]
    rcases List.mem_cons.mp hp with rfl | hrest
    · apply hasKey_foldl_resolveStep_mono
      by_cases h1 : hasKey acc p.1
      · exact hasKey_resolveStep_mono t n acc p p.1 h1
      · rw [Bool.not_eq_true] at h1
        rcases hcond with h2 | h2
        · have hstep : resolveStep t n acc p = acc ++ [(p.1, "/" ++ lookupD n p.1)] := by
            unfold resolveStep
            rw [h1]
            simp only [Bool.false_eq_true, if_false]
            rw [if_pos h2]
          rw [hstep, hasKey_append]
          simp [hasKey]
        · obtain ⟨v, hv⟩ := lookupA_some_of_hasKey h2
          by_cases h3 : p.2 = t
          · have hstep : resolveStep t n acc p = acc ++ [(p.1, "/" ++ lookupD n p.1)] := by
              unfold resolveStep
              rw [h1]
              simp only [Bool.false_eq_true, if_false]
              rw [if_pos h3]
            rw [hstep, hasKey_append]
            simp [hasKey]
          · have hstep : resolveStep t n acc p = acc ++ [(p.1, v ++ "/" ++ lookupD n p.1)] := by
              unfold resolveStep
              rw [h1]
              simp only [Bool.false_eq_true, if_false]
              rw [if_neg h3, hv]
            rw [hstep, hasKey_append]
            simp [hasKey]
    · apply foldl_resolveStep_resolves t n rest _ p hrest
      rcases hcond with h2 | h2
      · exact Or.inl h2
      · exact Or.inr (hasKey_resolveStep_mono t n acc q p.2 h2)

/-! ## Progress: under the tree hypothesis, an incomplete pass grows -/

theorem resolvePass_progress (t : String) (n parentMap acc : SMap)
    (rank : String → Nat) (htree : TreeHyp t parentMap rank)
    (hten : hasKey acc t = true)
    (p0 : String × String) (hp0 : p0 ∈ parentMap)
    (hp0un : hasKey acc p0.1 = false) :
    acc.length < (resolvePass t n parentMap acc).length := by
  classical
  set U := parentMap.filter (fun p => !(hasKey acc p.1)) with hU
  have hp0U : p0 ∈ U := by
    rw [hU, List.mem_filter]
    refine ⟨hp0, ?_⟩
    rw [hp0un]
    rfl
  have hUne : U ≠ [] := by
    intro h
    rw [h] at hp0U
    exact List.not_mem_nil _ hp0U
  obtain ⟨q, hq⟩ : ∃ q, q ∈ U.argmin (fun p => rank p.1) := by
    cases hargm : U.argmin (fun p => rank p.1) with
    | none => exact absurd (List.argmin_eq_none.mp hargm) hUne
    | some q =>
      refine ⟨q, ?_⟩
      rfl
  have hqU : q ∈ U := List.argmin_mem hq
  rw [hU, List.mem_filter] at hqU
  obtain ⟨hqmem, hqun2⟩ := hqU
  have hqun : hasKey acc q.1 = false := by
    rcases Bool.eq_false_or_eq_true (hasKey acc q.1) with h | h
    · rw [h] at hqun2
      simp at hqun2
    · exact h
  have hqne : q.1 ≠ t := by
    intro h
    rw [h, hten] at hqun
    exact Bool.noConfusion hqun
  unfold resolvePass
  have hres : hasKey (parentMap.foldl (resolveStep t n) acc) q.1 = true := by
    apply foldl_resolveStep_resolves t n parentMap acc q hqmem
    rcases htree q hqmem hqne with h2 | ⟨r, hr, hr1, hrlt⟩
    · exact Or.inl h2
    · right
      by_cases hacc : hasKey acc r.1
      · rw [hr1] at hacc
        exact hacc
      · exfalso
        rw [Bool.not_eq_true] at hacc
        have hrU : r ∈ U := by
          rw [hU, List.mem_filter]
          refine ⟨hr, ?_⟩
          rw [hacc]
          rfl
        have hle := List.le_of_mem_argmin hrU hq
        rw [hr1] at hle
        exact Nat.lt_irrefl _ (Nat.lt_of_lt_of_le hrlt hle)
  obtain ⟨e, he⟩ := foldl_resolveStep_append t n parentMap acc
  rw [he] at hres ⊢
  rw [hasKey_append, hqun, Bool.false_or] at hres
  have hene : e ≠ [] := by
    intro h
    rw [h] at hres
    simp [hasKey] at hres
  rw [List.length_append]
  have hpos : 0 < e.length := List.length_pos.mpr hene
  omega

/-! ## Soundness of the bounded resolution loop -/

theorem resolveLoop_sound (t : String) (n parentMap : SMap)
    (rank : String → Nat) (htree : TreeHyp t parentMap rank)
    (hkeys : keysOf n = keysOf parentMap)
    (hnodup : (keysOf n).Nodup)
    (P : SMap → Prop)
    (hP : ∀ acc, P acc → P (resolvePass t n parentMap acc)) :
    ∀ (fuel : Nat) (acc : SMap),
      (keysOf acc).Nodup → hasKey acc t = true →
      (∀ k, hasKey acc k = true → hasKey parentMap k = true) →
      P acc →
      n.length ≤ fuel + acc.length →
      ∃ full, resolveLoop t n parentMap fuel acc = some full ∧
        (∀ x ∈ acc, x ∈ full) ∧
        (keysOf full).Nodup ∧
        (∀ k, hasKey full k = true → hasKey parentMap k = true) ∧
        (∀ k, hasKey parentMap k = true → hasKey full k = true) ∧
        P full := by
  intro fuel
  induction fuel with
  | zero =>
    intro acc hnd hten hsub hPacc hfuel
    rw [Nat.zero_add] at hfuel
    refine ⟨acc, ?_, fun x hx => hx, hnd, hsub, ?_, hPacc⟩
    · unfold resolveLoop
      rw [if_neg (Nat.not_lt.mpr hfuel)]
    · intro k hk
      have hsubset : keysOf acc ⊆ keysOf n := by
        intro j hj
        rw [hkeys]
        exact (hasKey_iff_mem _ _).mp (hsub j ((hasKey_iff_mem _ _).mpr hj))
      have hsp : (keysOf acc).Subperm (keysOf n) := List.Nodup.subperm hnd hsubset
      have hlen : (keysOf n).length ≤ (keysOf acc).length := by
        simp only [keysOf, List.length_map]
        exact hfuel
      have hperm := List.Subperm.perm_of_length_le hsp hlen
      rw [hasKey_iff_mem]
      rw [hasKey_iff_mem, ← hkeys] at hk
      exact hperm.mem_iff.mpr hk
  | succ fuel ih =>
    intro acc hnd hten hsub hPacc hfuel
    by_cases hlt : acc.length < n.length
    · have hunres : ∃ p ∈ parentMap, hasKey acc p.1 = false := by
        by_contra hall
        push_neg at hall
        have hsubset : keysOf n ⊆ keysOf acc := by
          intro j hj
          rw [hkeys] at hj
          obtain ⟨p, hp, hp1⟩ := by
            simpa only [keysOf, List.mem_map] using hj
          have hne := hall p hp
          rcases Bool.eq_false_or_eq_true (hasKey acc p.1) with h | h
          · rw [hasKey_iff_mem] at h
            rw [← hp1]
            exact h
          · exact absurd h hne
        have hsp : (keysOf n).Subperm (keysOf acc) :=
          List.Nodup.subperm hnodup hsubset
        have := List.Subperm.length_le hsp
        simp only [keysOf, List.length_map] at this
        omega
      obtain ⟨p0, hp0, hp0un⟩ := hunres
      have hprog := resolvePass_progress t n parentMap acc rank htree hten p0 hp0 hp0un
      have hne : ¬ (resolvePass t n parentMap acc).length = acc.length := by
        omega
      have hrec := ih (resolvePass t n parentMap acc)
        (nodup_keysOf_foldl_resolveStep t n parentMap acc hnd)
        (hasKey_foldl_resolveStep_mono t n parentMap acc t hten)
        (by
          intro k hk
          rcases hasKey_foldl_resolveStep_sub t n parentMap acc k hk with h | h
          · exact hsub k h
          · exact (hasKey_iff_mem _ _).mpr h)
        (hP acc hPacc)
        (by omega)
      obtain ⟨full, hfull, hmem, hnd2, hsub2, hsup2, hP2⟩ := hrec
      refine ⟨full, ?_, ?_, hnd2, hsub2, hsup2, hP2⟩
      · unfold resolveLoop
        rw [if_pos hlt]
        simp only [if_neg hne]
        exact hfull
      · intro x hx
        exact hmem x (mem_foldl_resolveStep t n parentMap acc x hx)
    · refine ⟨acc, ?_, fun x hx => hx, hnd, hsub, ?_, hPacc⟩
      · unfold resolveLoop
        rw [if_neg hlt]
      · intro k hk
        have hsubset : keysOf acc ⊆ keysOf n := by
          intro j hj
          rw [hkeys]
          exact (hasKey_iff_mem _ _).mp (hsub j ((hasKey_iff_mem _ _).mpr hj))
        have hsp : (keysOf acc).Subperm (keysOf n) := List.Nodup.subperm hnd hsubset
        have hlen : (keysOf n).length ≤ (keysOf acc).length := by
          simp only [keysOf, List.length_map]
          omega
        have hperm := List.Subperm.perm_of_length_le hsp hlen
        rw [hasKey_iff_mem]
        rw [hasKey_iff_mem, ← hkeys] at hk
        exact hperm.mem_iff.mpr hk

/-! ## Shape of the values a resolution step adds -/

theorem resolveStep_cases (t : String) (n acc : SMap) (p : String × String) :
    resolveStep t n acc p = acc ∨
      (p.2 = t ∧ resolveStep t n acc p = acc ++ [(p.1, "/" ++ lookupD n p.1)]) ∨
      (p.2 ≠ t ∧ ∃ fullParent, lookupA acc p.2 = some fullParent ∧
        resolveStep t n acc p =
          acc ++ [(p.1, fullParent ++ "/" ++ lookupD n p.1)]) := by
  by_cases h1 : hasKey acc p.1
  · left
    unfold resolveStep
    simp [h1]
  · rw [Bool.not_eq_true] at h1
    by_cases h2 : p.2 = t
    · refine Or.inr (Or.inl ⟨h2, ?_⟩)
      unfold resolveStep
      rw [h1]
      simp only [Bool.false_eq_true, if_false]
      rw [if_pos h2]
    · cases hl : lookupA acc p.2 with
      | none =>
        left
        unfold resolveStep
        rw [h1]
        simp only [Bool.false_eq_true, if_false]
        rw [if_neg h2, hl]
      | some fullParent =>
        refine Or.inr (Or.inr ⟨h2, fullParent, rfl, ?_⟩)
        unfold resolveStep
        rw [h1]
        simp only [Bool.false_eq_true, if_false]
        rw [if_neg h2, hl]

theorem head?_data_append (s r : String) (c : Char)
    (h : s.data.head? = some c) : (s ++ r).data.head? = some c := by
  rw [String.data_append]
  cases hs : s.data with
  | nil =>
    rw [hs] at h
    simp at h
  | cons a as =>
    rw [hs] at h
    simp only [List.head?_cons, Option.some_inj] at h
    simp [h]

theorem slashInv_resolveStep (t : String) (n acc : SMap) (p : String × String)
    (h : SlashInv t acc) : SlashInv t (resolveStep t n acc p) := by
  rcases resolveStep_cases t n acc p with heq | ⟨h2, heq⟩ | ⟨h2, fullParent, hl, heq⟩
  · rw [heq]
    exact h
  · rw [heq]
    intro x hx hxt
    rcases List.mem_append.mp hx with hx | hx
    · exact h x hx hxt
    · simp only [List.mem_singleton] at hx
      subst hx
      apply head?_data_append
      rfl
  · rw [heq]
    intro x hx hxt
    rcases List.mem_append.mp hx with hx | hx
    · exact h x hx hxt
    · simp only [List.mem_singleton] at hx
      subst hx
      have hmem := lookupA_mem hl
      have hhead := h (p.2, fullParent) hmem h2
      apply head?_data_append
      apply head?_data_append
      exact hhead

theorem slashInv_resolvePass (t : String) (n parentMap : SMap) :
    ∀ (l : SMap) (acc : SMap), SlashInv t acc →
      SlashInv t (l.foldl (resolveStep t n) acc)
  | [], _, h => h
  | p :: rest, acc, h => by
    simp only [List.foldl_cons]
    exact slashInv_resolvePass t n parentMap rest _ (slashInv_resolveStep t n acc p h)

/-! ## Inverting the full-name map into the final cache -/

theorem foldl_insertA_swap :
    ∀ (l : SMap) (m0 : SMap),
      (∀ q ∈ l, hasKey m0 q.2 = false) → (l.map Prod.snd).Nodup →
      l.foldl (fun m p => insertA m p.2 p.1) m0 = m0 ++ l.map (fun p => (p.2, p.1))
  | [], m0, _, _ => by simp
  | q :: rest, m0, hfresh, hnd => by
    simp only [List.foldl_cons]
    have hq : hasKey m0 q.2 = false := hfresh q (List.mem_cons_self q rest)
    have hins : insertA m0 q.2 q.1 = m0 ++ [(q.2, q.1)] := by
      unfold insertA
      rw [hq]
      simp
    rw [hins]
    simp only [List.map_cons, List.nodup_cons] at hnd
    have hrec := foldl_insertA_swap rest (m0 ++ [(q.2, q.1)])
      (by
        intro r hr
        rw [hasKey_append]
        have h1 : hasKey m0 r.2 = false := hfresh r (List.mem_cons_of_mem q hr)
        have h2 : hasKey [(q.2, q.1)] r.2 = false := by
          have : r.2 ≠ q.2 := by
            intro hcon
            exact hnd.1 (by rw [← hcon]; exact List.mem_map_of_mem Prod.snd hr)
          simp [hasKey, this, Ne.symm this]
        rw [h1, h2]
        rfl)
      hnd.2
    rw [hrec, List.map_cons, List.append_assoc]
    rfl

/-! ## Master soundness of the hierarchy resolver on tree-shaped listings -/

theorem getCompartments_sound (t tn : String) (items : List CompartmentItem)
    (rank : String → Nat)
    (htree : TreeHyp t (buildIdToParent t items) rank)
    (hinj : (fullPathsOf t tn items).Nodup) :
    ∃ full m, resolveFull t tn items = some full ∧
      getCompartmentsModel t tn items = some m ∧
      m = full.map (fun p => (p.2, p.1)) ∧
      (t, tn ++ "(tenancy, shown as \x27/\x27)") ∈ full ∧
      (keysOf full).Nodup ∧
      SlashInv t full ∧
      (∀ k, hasKey (buildIdToName t tn items) k = true → hasKey full k = true) ∧
      (∀ k, hasKey full k = true → hasKey (buildIdToParent t items) k = true) := by
  have hkeys := keysOf_buildIdToName_eq_buildIdToParent t tn items
  have hsound := resolveLoop_sound t (buildIdToName t tn items)
    (buildIdToParent t items) rank htree hkeys
    (nodup_keysOf_buildIdToName t tn items)
    (SlashInv t)
    (fun acc hacc => slashInv_resolvePass t (buildIdToName t tn items)
      (buildIdToParent t items) (buildIdToParent t items) acc hacc)
    (buildIdToName t tn items).length
    [(t, tn ++ "(tenancy, shown as \x27/\x27)")]
    (by simp [keysOf])
    (by simp [hasKey])
    (by
      intro k hk
      have hk2 : t = k := by simpa [hasKey] using hk
      rw [← hk2]
      exact (hasKey_iff_mem _ _).mpr (tenancy_mem_buildIdToParent t items))
    (by
      intro x hx hxt
      simp only [List.mem_singleton] at hx
      rw [hx] at hxt
      exact absurd rfl hxt)
    (by omega)
  obtain ⟨full, hloop, hmem, hnd, hsub, hsup, hslash⟩ := hsound
  have hfull : resolveFull t tn items = some full := hloop
  have hpaths : (full.map Prod.snd).Nodup := by
    unfold fullPathsOf at hinj
    rw [hfull] at hinj
    exact hinj
  have hswap : full.foldl (fun m p => insertA m p.2 p.1) [] =
      full.map (fun p => (p.2, p.1)) := by
    have := foldl_insertA_swap full []
      (by
        intro q hq
        rfl)
      hpaths
    simpa using this
  refine ⟨full, full.map (fun p => (p.2, p.1)), hfull, ?_, rfl,
    hmem _ (List.mem_singleton_self _), hnd, hslash, ?_, hsub⟩
  · unfold getCompartmentsModel
    rw [hfull]
    exact congrArg some hswap
  · intro k hk
    exact hsup k ((hasKey_congr hkeys k) ▸ hk)

/-! ## Facts about series naming -/

theorem foldl_matching_id (name : String) :
    ∀ (dims : List (String × String)),
      (∀ kv ∈ dims, hasWordThenName kv.1.data = false) →
      dims.foldl
        (fun acc kv =>
          if hasWordThenName kv.1.data then acc ++ ", \x7b" ++ kv.2 ++ "\x7d" else acc)
        name = name := by
  intro dims
  induction dims generalizing name with
  | nil => intro _; rfl
  | cons kv rest ih =>
    intro h
    simp only [List.foldl_cons]
    rw [h kv (List.mem_cons_self kv rest)]
    simp only [Bool.false_eq_true, if_false]
    exact ih name (fun x hx => h x (List.mem_cons_of_mem kv hx))

theorem mem_insertSortedStr (s k : String) :
    ∀ (l : List String), k ∈ insertSortedStr s l → k = s ∨ k ∈ l
  | [], h => by
    simp only [insertSortedStr, List.mem_singleton] at h
    exact Or.inl h
  | x :: xs, h => by
    unfold insertSortedStr at h
    by_cases hle : strLeB s x = true
    · rw [if_pos hle] at h
      simp only [List.mem_cons] at h
      rcases h with h | h
      · exact Or.inl h
      · exact Or.inr (List.mem_cons.mpr h)
    · rw [if_neg hle] at h
      rcases List.mem_cons.mp h with rfl | h2
      · exact Or.inr (List.mem_cons_self _ _)
      · rcases mem_insertSortedStr s k xs h2 with h3 | h3
        · exact Or.inl h3
        · exact Or.inr (List.mem_cons_of_mem _ h3)

theorem mem_sortStrings (k : String) :
    ∀ (l : List String), k ∈ sortStrings l → k ∈ l
  | [], h => by
    simp [sortStrings] at h
  | x :: xs, h => by
    simp only [sortStrings, List.foldr_cons] at h
    rcases mem_insertSortedStr x k (xs.foldr insertSortedStr []) h with rfl | h2
    · exact List.mem_cons_self _ _
    · exact List.mem_cons_of_mem _ (mem_sortStrings k xs h2)

theorem string_append_ne_empty (a b : String) (h : a ≠ "") : a ++ b ≠ "" := by
  intro hcon
  apply h
  have hdata : (a ++ b).data = [] := by rw [hcon]
  rw [String.data_append] at hdata
  have hnil : a.data = [] := by
    cases hd : a.data with
    | nil => rfl
    | cons c cs =>
      rw [hd] at hdata
      simp at hdata
  exact String.ext hnil

theorem joinComma_cons_cons (a b : String) (l : List String) :
    joinComma (a :: b :: l) = a ++ ", " ++ joinComma (b :: l) := rfl

theorem foldl_join_aux :
    ∀ (vs : List String) (v : String), v ≠ "" →
      vs.foldl (fun pre w => if pre = "" then w else pre ++ ", " ++ w) v =
        joinComma (v :: vs)
  | [], v, _ => rfl
  | w :: ws, v, hv => by
    simp only [List.foldl_cons]
    rw [if_neg hv]
    rw [joinComma_cons_cons]
    have hne : v ++ ", " ++ w ≠ "" :=
      string_append_ne_empty _ w (string_append_ne_empty v ", " hv)
    rw [foldl_join_aux ws (v ++ ", " ++ w) hne]
    cases ws with
    | nil => simp [joinComma, String.append_assoc]
    | cons u us =>
      rw [joinComma_cons_cons, joinComma_cons_cons]
      simp [String.append_assoc]

theorem foldl_join (vs : List String) (hne : ∀ w ∈ vs, w ≠ "") :
    vs.foldl (fun pre w => if pre = "" then w else pre ++ ", " ++ w) "" =
      joinComma vs := by
  cases vs with
  | nil => rfl
  | cons v ws =>
    simp only [List.foldl_cons, if_pos rfl]
    exact foldl_join_aux ws v (hne v (List.mem_cons_self v ws))

/-! ## Claim theorems -/

/-- C1: the claim says a failing summarize-metrics-data call is recorded in
that query's result `Error` field while the rest of the batch is still
processed.  The code instead aborts the whole batch at line 535
(`return nil, errors.Wrap(...)`); the per-query `Error` branch of lines
548-552 is dead.  This theorem evaluates the model at the failing input:
a two-query batch whose first call fails yields a batch-level error and no
per-query results, while the same batch with no failure yields one result
per query. -/
theorem c1_queryResponse_abortsBatch :
    queryResponseModel
      (fun q => if q.refId = "A" then Except.error "summarize failed"
        else Except.ok [⟨"CpuUtilization", []⟩])
      [⟨"A", "rg"⟩, ⟨"B", "rg"⟩] = Except.error "summarize failed" ∧
    queryResponseModel (fun _ => Except.ok [⟨"CpuUtilization", []⟩])
      [⟨"A", "rg"⟩, ⟨"B", "rg"⟩] =
      Except.ok [⟨"A", none, ["CpuUtilization, \x7b\x7d"]⟩,
        ⟨"B", none, ["CpuUtilization, \x7b\x7d"]⟩] := by
  refine ⟨rfl, rfl⟩

/-- C2: the claim says the pagination helper stops after exactly 20 calls
when every page carries a cursor.  The loop of lines 351-371 checks
`pageNumber >= MAX_PAGES_TO_FETCH` only after fetching and increments
afterwards, so pages 0 through 20 are fetched: 21 `ListMetrics` calls, not
20, contradicting the constant's name and the comment at line 364.  The
theorem also verifies the claim's other half on a three-page backend:
3 calls, items concatenated in call order. -/
theorem c2_searchHelper_fetches21Pages :
    (searchHelperModel apiEndlessPages).2 = 21 ∧
    searchHelperModel apiThreePages = (["a", "b", "c"], 3) := by
  refine ⟨by decide, by decide⟩

/-- C5: the claim says a compartments request within one minute of the last
rebuild leaves the cache untouched.  `timeCacheUpdated` is never assigned
anywhere in the file, so it stays the zero time, `IsZero()` is always true
and every request rebuilds: here a rebuild at time 0 leaves the timestamp
unset and a second request one second later rebuilds again, replacing
`nameToOCID`. -/
theorem c5_cache_rebuilds_every_request :
    compartmentsStep 0 ⟨[], none⟩ (Except.ok [("/a", "ocid1")]) =
      Except.ok (⟨[("/a", "ocid1")], none⟩, true) ∧
    compartmentsStep 1000000000 ⟨[("/a", "ocid1")], none⟩
        (Except.ok [("/b", "ocid2")]) =
      Except.ok (⟨[("/b", "ocid2")], none⟩, true) := by
  refine ⟨rfl, rfl⟩

theorem rgLoop_sentinel :
    ∀ (qrs : List (Except String (List String))) (rows : List String),
      qrs ≠ [] →
      (∀ r ∈ qrs, ∃ items, r = Except.ok items) →
      ∃ items, rgLoop qrs rows = Except.ok ("NoResourceGroup" :: items) ∧
        qrs.getLast? = some (Except.ok items)
  | [], _, hne, _ => absurd rfl hne
  | [r], rows, _, hok => by
    obtain ⟨items, rfl⟩ := hok r (List.mem_singleton_self r)
    exact ⟨items, rfl, rfl⟩
  | r :: r2 :: rest, rows, _, hok => by
    obtain ⟨items0, rfl⟩ := hok r (List.mem_cons_self _ _)
    obtain ⟨items, h1, h2⟩ := rgLoop_sentinel (r2 :: rest)
      ("NoResourceGroup" :: items0) (by simp)
      (fun x hx => hok x (List.mem_cons_of_mem _ hx))
    refine ⟨items, h1, ?_⟩
    rw [List.getLast?_cons_cons]
    exact h2

/-- C8: for every resource-groups request whose queries all succeed (and
there is at least one query — `Query` dereferences `Queries[0]` before
dispatch), the returned table's first row is `NoResourceGroup` and the
remaining rows are the groups of the last query (each successful query
overwrites the shared table, lines 250-269). -/
theorem c8_resourcegroups_sentinel_first
    (qrs : List (Except String (List String)))
    (hne : qrs ≠ []) (hok : ∀ r ∈ qrs, ∃ items, r = Except.ok items) :
    ∃ items, resourcegroupsRowsModel qrs =
        Except.ok ("NoResourceGroup" :: items) ∧
      qrs.getLast? = some (Except.ok items) :=
  rgLoop_sentinel qrs [] hne hok

/-- Witness for C8 at a concrete input: a single query whose helper call
returns zero resource groups still yields `NoResourceGroup` as first (and
only) row. -/
theorem c8_resourcegroups_sentinel_first_witness :
    resourcegroupsRowsModel [Except.ok []] = Except.ok ["NoResourceGroup"] := by
  obtain ⟨items, h1, h2⟩ := c8_resourcegroups_sentinel_first [Except.ok []]
    (by simp)
    (by
      intro r hr
      simp only [List.mem_singleton] at hr
      exact ⟨[], hr⟩)
  simp only [List.getLast?_singleton, Option.some_inj] at h2
  injection h2 with h3
  rw [h1, ← h3]

/-- C9: a request whose `Environment` is neither `local` nor `OCI Instance`
reaching an adapter with no cached clients makes `Query` fail with the
wrapped `broken environment` configuration error before any client is
constructed or any handler dispatched (the model returns the error and no
state/handler pair); and the search responder's dedup over items named
`A`, `B`, `A` yields exactly the rows `A`, `B` in first-seen order. -/
theorem c9_unknown_environment (env queryType : String)
    (h1 : env ≠ "local") (h2 : env ≠ "OCI Instance") :
    queryRouteModel ⟨none, false, false⟩ env queryType =
      Except.error "broken environment: unknown environment type" ∧
    searchRowsModel ["A", "B", "A"] = ["A", "B"] := by
  constructor
  · unfold queryRouteModel queryBootstrap getConfigProviderModel
    rw [if_neg h1, if_neg h2]
    rfl
  · decide

/-- Witness for C9 at a concrete unknown environment string. -/
theorem c9_unknown_environment_witness :
    queryRouteModel ⟨none, false, false⟩ "docker" "search" =
      Except.error "broken environment: unknown environment type" :=
  (c9_unknown_environment "docker" "search" (by decide) (by decide)).1

/-- C10: in all three outbound request builders (dimensions, search, main
query) the decoded `ResourceGroup` is omitted from the request exactly
when it equals the sentinel `NoResourceGroup`, and any other value —
including the empty string — is passed through as the filter. -/
theorem c10_resourceGroup_sentinel (namespaceV rg metric : String) :
    (rg = "NoResourceGroup" →
      (dimensionReqDetails namespaceV rg metric).resourceGroup = none ∧
      (searchReqDetails namespaceV rg).resourceGroup = none ∧
      summarizeDetailsResourceGroup rg = none) ∧
    (rg ≠ "NoResourceGroup" →
      (dimensionReqDetails namespaceV rg metric).resourceGroup = some rg ∧
      (searchReqDetails namespaceV rg).resourceGroup = some rg ∧
      summarizeDetailsResourceGroup rg = some rg) := by
  constructor
  · intro h
    simp [dimensionReqDetails, searchReqDetails, summarizeDetailsResourceGroup, h]
  · intro h
    simp [dimensionReqDetails, searchReqDetails, summarizeDetailsResourceGroup, h]

/-- Witness for C10: the sentinel is dropped, an ordinary name and the
empty string are passed through. -/
theorem c10_resourceGroup_sentinel_witness :
    (dimensionReqDetails "ns" "NoResourceGroup" "m").resourceGroup = none ∧
    (searchReqDetails "ns" "frontend-group").resourceGroup =
      some "frontend-group" ∧
    summarizeDetailsResourceGroup "" = some "" :=
  ⟨((c10_resourceGroup_sentinel "ns" "NoResourceGroup" "m").1 rfl).1,
    ((c10_resourceGroup_sentinel "ns" "frontend-group" "m").2 (by decide)).2.1,
    ((c10_resourceGroup_sentinel "ns" "" "m").2 (by decide)).2.2⟩

/-- C3 counterexample: the claim says every key of the returned map begins
with `/`.  On the listing with tenancy named `T` and one active compartment
`dev` under it, the resolver returns the tenancy's entry under the key
`T(tenancy, shown as '/')` (line 469), which does not begin with `/`. -/
theorem c3_counterexample :
    getCompartmentsModel "t" "T" [⟨"c1", "dev", "t", true⟩] =
      some [("T(tenancy, shown as \x27/\x27)", "t"), ("/dev", "c1")] ∧
    ("T(tenancy, shown as \x27/\x27)").data.head? ≠ some '/' := by
  refine ⟨rfl, by decide⟩

/-- C3 (amended): for every listing whose active compartments form a finite
tree below the tenancy and whose resolved full paths are pairwise distinct,
the resolver returns a map holding the tenancy's marker entry, exactly one
entry per active compartment id (the ids are the map's values, free of
duplicates), and every key other than the tenancy's begins with `/`. -/
theorem c3_amended_resolverPaths (t tn : String) (items : List CompartmentItem)
    (rank : String → Nat)
    (htree : TreeHyp t (buildIdToParent t items) rank)
    (hinj : (fullPathsOf t tn items).Nodup) :
    ∃ m, getCompartmentsModel t tn items = some m ∧
      (tn ++ "(tenancy, shown as \x27/\x27)", t) ∈ m ∧
      (∀ p ∈ m, p.2 ≠ t → p.1.data.head? = some '/') ∧
      (∀ it ∈ items, it.active = true → ∃ fp, (fp, it.id) ∈ m) ∧
      (m.map Prod.snd).Nodup := by
  obtain ⟨full, m, hfull, hm, hswap, hten, hnd, hslash, hsupn, hsubp⟩ :=
    getCompartments_sound t tn items rank htree hinj
  refine ⟨m, hm, ?_, ?_, ?_, ?_⟩
  · rw [hswap]
    exact List.mem_map_of_mem (fun p => (p.2, p.1)) hten
  · intro p hp hpt
    rw [hswap] at hp
    obtain ⟨x, hx, rfl⟩ := List.mem_map.mp hp
    exact hslash x hx hpt
  · intro it hit ha
    have hid : it.id ∈ keysOf (buildIdToName t tn items) :=
      active_mem_buildIdToName t tn items it hit ha
    have hkey : hasKey full it.id = true :=
      hsupn it.id ((hasKey_iff_mem _ _).mpr hid)
    rw [hasKey_iff_mem] at hkey
    obtain ⟨x, hx, hx1⟩ := List.mem_map.mp hkey
    refine ⟨x.2, ?_⟩
    rw [hswap]
    rw [← hx1]
    exact List.mem_map_of_mem (fun p => (p.2, p.1)) hx
  · rw [hswap, List.map_map]
    have heq : (Prod.snd ∘ fun p : String × String => (p.2, p.1)) = Prod.fst := by
      funext p
      rfl
    rw [heq]
    exact hnd

/-- Witness for the amended C3 at a two-level concrete tree. -/
theorem c3_amended_resolverPaths_witness :
    getCompartmentsModel "t" "T"
      [⟨"c1", "a", "t", true⟩, ⟨"c2", "b", "c1", true⟩] ≠ none := by
  obtain ⟨m, hm, -, -, -, -⟩ := c3_amended_resolverPaths "t" "T"
    [⟨"c1", "a", "t", true⟩, ⟨"c2", "b", "c1", true⟩]
    (fun s => if s = "c2" then 1 else 0)
    (by
      unfold TreeHyp
      decide)
    (by decide)
  rw [hm]
  exact fun h => Option.noConfusion h

/-- C4 counterexample: the claim says the rebuild still completes when an
entry's parent is never resolved.  On a listing whose only active
compartment points at a parent id absent from the listing, no pass of the
resolution loop of lines 471-487 can add anything while the entry count
stays short, so the Go loop never exits; the model records the divergence
as `none`. -/
theorem c4_counterexample :
    getCompartmentsModel "t" "T" [⟨"c1", "dev", "missing", true⟩] = none := rfl

/-- C4 (amended): inactive listing entries are dropped, but a rebuild only
completes when every active entry's parent chain reaches the tenancy; when
it does (and the resolved full paths are distinct), every active id of the
listing appears as a value of the cache, and every value of the cache is
the tenancy or an active listed id. -/
theorem c4_amended_cacheMembership (t tn : String) (items : List CompartmentItem)
    (rank : String → Nat)
    (htree : TreeHyp t (buildIdToParent t items) rank)
    (hinj : (fullPathsOf t tn items).Nodup) :
    ∃ m, getCompartmentsModel t tn items = some m ∧
      (∀ it ∈ items, it.active = true → ∃ fp, (fp, it.id) ∈ m) ∧
      (∀ p ∈ m, hasKey (buildIdToName t tn items) p.2 = true) := by
  obtain ⟨full, m, hfull, hm, hswap, hten, hnd, hslash, hsupn, hsubp⟩ :=
    getCompartments_sound t tn items rank htree hinj
  refine ⟨m, hm, ?_, ?_⟩
  · intro it hit ha
    have hid : it.id ∈ keysOf (buildIdToName t tn items) :=
      active_mem_buildIdToName t tn items it hit ha
    have hkey : hasKey full it.id = true :=
      hsupn it.id ((hasKey_iff_mem _ _).mpr hid)
    rw [hasKey_iff_mem] at hkey
    obtain ⟨x, hx, hx1⟩ := List.mem_map.mp hkey
    refine ⟨x.2, ?_⟩
    rw [hswap, ← hx1]
    exact List.mem_map_of_mem (fun p => (p.2, p.1)) hx
  · intro p hp
    rw [hswap] at hp
    obtain ⟨x, hx, rfl⟩ := List.mem_map.mp hp
    have hkey : hasKey full x.1 = true :=
      (hasKey_iff_mem _ _).mpr (List.mem_map_of_mem Prod.fst hx)
    have hpar := hsubp x.1 hkey
    rw [hasKey_congr (keysOf_buildIdToName_eq_buildIdToParent t tn items) x.1]
    exact hpar

/-- Witness for the amended C4: a tree with an inactive entry resolves, the
active ids `c1`, `c2` appear as values, the inactive `c3` does not. -/
theorem c4_amended_cacheMembership_witness :
    getCompartmentsModel "t" "T"
      [⟨"c1", "a", "t", true⟩, ⟨"c2", "b", "c1", true⟩,
        ⟨"c3", "c", "t", false⟩] ≠ none := by
  obtain ⟨m, hm, -, -⟩ := c4_amended_cacheMembership "t" "T"
    [⟨"c1", "a", "t", true⟩, ⟨"c2", "b", "c1", true⟩, ⟨"c3", "c", "t", false⟩]
    (fun s => if s = "c2" then 1 else 0)
    (by
      unfold TreeHyp
      decide)
    (by decide)
  rw [hm]
  exact fun h => Option.noConfusion h

/-- C7: on every listing whose active compartments form a finite tree
rooted at the tenancy (expressed by a rank function decreasing along
parent links), the fixed-point loop of `getCompartments` terminates with
every listed id resolved, and every full pass over a partially resolved
accumulator that satisfies the loop invariant and still has an unresolved
entry strictly grows the accumulator — the decreasing-unresolved-count
argument of the specification. -/
theorem c7_resolution_terminates (t tn : String) (items : List CompartmentItem)
    (rank : String → Nat)
    (htree : TreeHyp t (buildIdToParent t items) rank) :
    (∃ full, resolveFull t tn items = some full ∧
      ∀ k, hasKey (buildIdToName t tn items) k = true → hasKey full k = true) ∧
    (∀ acc, AccInv t (buildIdToParent t items) acc →
      (∃ p ∈ buildIdToParent t items, hasKey acc p.1 = false) →
      acc.length <
        (resolvePass t (buildIdToName t tn items)
          (buildIdToParent t items) acc).length) := by
  have hkeys := keysOf_buildIdToName_eq_buildIdToParent t tn items
  constructor
  · have hsound := resolveLoop_sound t (buildIdToName t tn items)
      (buildIdToParent t items) rank htree hkeys
      (nodup_keysOf_buildIdToName t tn items)
      (fun _ => True)
      (fun _ _ => trivial)
      (buildIdToName t tn items).length
      [(t, tn ++ "(tenancy, shown as \x27/\x27)")]
      (by simp [keysOf])
      (by simp [hasKey])
      (by
        intro k hk
        have hk2 : t = k := by simpa [hasKey] using hk
        rw [← hk2]
        exact (hasKey_iff_mem _ _).mpr (tenancy_mem_buildIdToParent t items))
      trivial
      (by omega)
    obtain ⟨full, hloop, -, -, -, hsup, -⟩ := hsound
    refine ⟨full, hloop, ?_⟩
    intro k hk
    exact hsup k ((hasKey_congr hkeys k) ▸ hk)
  · rintro acc ⟨hnd, hten, hsub⟩ ⟨p0, hp0, hp0un⟩
    exact resolvePass_progress t (buildIdToName t tn items)
      (buildIdToParent t items) acc rank htree hten p0 hp0 hp0un

/-- Witness for C7 at a concrete one-compartment tree. -/
theorem c7_resolution_terminates_witness :
    resolveFull "t" "T" [⟨"c1", "dev", "t", true⟩] ≠ none := by
  obtain ⟨⟨full, hfull, -⟩, -⟩ := c7_resolution_terminates "t" "T"
    [⟨"c1", "dev", "t", true⟩] (fun _ => 0)
    (by
      unfold TreeHyp
      decide)
  rw [hfull]
  exact fun h => Option.noConfusion h

/-- C6 counterexample: the claim says that with no dimension key matching
the pattern, the series name is the metric name followed by all dimension
values sorted by key and joined by `, `.  With dimensions
`a = ""`, `b = "x"` (neither key matches), the sorted-joined values are
`, x`, so the claim predicts `M, \x7b, x\x7d`; the fold of lines 575-581
treats the still-empty accumulator as not started and produces `M, \x7bx\x7d`. -/
theorem c6_counterexample :
    ([("a", ""), ("b", "x")].all
      (fun kv => !(hasWordThenName (kv.1 : String).data))) = true ∧
    seriesNameModel "M" [("a", ""), ("b", "x")] = "M, \x7bx\x7d" ∧
    seriesNameModel "M" [("a", ""), ("b", "x")] ≠
      "M" ++ ", \x7b" ++
        joinComma ((sortStrings ([("a", ""), ("b", "x")].map Prod.fst)).map
          (lookupD [("a", ""), ("b", "x")])) ++ "\x7d" := by
  refine ⟨by decide, by decide, by decide⟩

/-- C6 (amended): the reshaper names the item
`{Name: CpuUtilization, Dimensions: {resourceDisplayName: vm1}}` as
`CpuUtilization, \x7bvm1\x7d`; and for every item none of whose dimension keys
matches the word-characters-then-`Name` pattern and all of whose dimension
values are nonempty, the name is the metric name followed by `, \x7b`, all
dimension values sorted by key joined by `, `, and `\x7d` (with an empty
value the fold of lines 575-581 drops the leading separator instead). -/
theorem c6_amended_seriesNaming :
    seriesNameModel "CpuUtilization" [("resourceDisplayName", "vm1")] =
      "CpuUtilization, \x7bvm1\x7d" ∧
    seriesNameModel "CpuUtilization"
        [("availabilityDomain", "AD-1"), ("shape", "VM.Standard")] =
      "CpuUtilization, \x7bAD-1, VM.Standard\x7d" ∧
    ∀ (name : String) (dims : List (String × String)),
      (∀ kv ∈ dims, hasWordThenName kv.1.data = false) →
      (∀ kv ∈ dims, kv.2 ≠ "") →
      seriesNameModel name dims =
        name ++ ", \x7b" ++
          joinComma ((sortStrings (dims.map Prod.fst)).map (lookupD dims)) ++
          "\x7d" := by
  refine ⟨by decide, by decide, ?_⟩
  intro name dims hnomatch hvals
  have hvals2 : ∀ w ∈ (sortStrings (dims.map Prod.fst)).map (lookupD dims),
      w ≠ "" := by
    intro w hw
    obtain ⟨k, hk, rfl⟩ := List.mem_map.mp hw
    have hkdims : k ∈ dims.map Prod.fst := mem_sortStrings k _ hk
    obtain ⟨kv, hkv, rfl⟩ := List.mem_map.mp hkdims
    have hhk : hasKey dims kv.1 = true :=
      (hasKey_iff_mem _ _).mpr (List.mem_map_of_mem Prod.fst hkv)
    obtain ⟨v, hv⟩ := lookupA_some_of_hasKey hhk
    have hmemv := lookupA_mem hv
    unfold lookupD
    rw [hv]
    exact hvals (kv.1, v) hmemv
  unfold seriesNameModel
  rw [foldl_matching_id name dims hnomatch]
  rw [if_pos rfl]
  rw [← foldl_join _ hvals2, List.foldl_map]

/-- Witness for the amended C6 at the claim's own no-match example. -/
theorem c6_amended_seriesNaming_witness :
    seriesNameModel "CpuUtilization"
        [("availabilityDomain", "AD-1"), ("shape", "VM.Standard")] =
      "CpuUtilization" ++ ", \x7b" ++
        joinComma ((sortStrings
          ([("availabilityDomain", "AD-1"),
            ("shape", "VM.Standard")].map Prod.fst)).map
          (lookupD [("availabilityDomain", "AD-1"), ("shape", "VM.Standard")])) ++
        "\x7d" :=
  c6_amended_seriesNaming.2.2 "CpuUtilization"
    [("availabilityDomain", "AD-1"), ("shape", "VM.Standard")]
    (by decide) (by decide)
